import Mathlib

/-!
Verification of the POI resolution and call-path-discovery engine of this
repository (`aijon_lib/poi_interface/`): a shallow embedding of
`poi_poi.py`, `crash_poi.py` and `oss_fuzz_poi.py` in Lean 4, together
with theorems settling the specified properties.

Modelling conventions:
* Python strings are Lean `String`s; the string operations the code uses
  (`str.rsplit(":", 2)`, `Path(p).name`, `int(s)`, substring tests) are
  re-implemented recursively over `String.data` so that every definition
  is executable and kernel-reducible.
* `networkx.DiGraph` is modelled as an edge list of function-name pairs;
  node membership, successors and predecessors are derived exactly as the
  code consumes them.  Graphs in this code base are only ever built via
  `add_edge` (`gen_callgraph_from_file`), so nodes are exactly edge
  endpoints.
* The external `FunctionResolver` (package `project_utils`, not part of
  this repository) is a boundary object: it is modelled as a record of
  oracle functions, universally quantified in the theorems.  A `none`
  result of an oracle models the corresponding Python call raising an
  exception that the caller catches with a bare `except`.
* The thread-based timeout of `with_timeout` is modelled by an explicit
  boolean input saying whether the wall-clock deadline was exceeded; the
  wrapped computation itself is pure.
* Python `list(set(xs))` iterates a hash set in an unspecified order; it
  is modelled by `List.dedup`.  All theorems about such results are
  stated at the level of membership / finite sets, never element order.
-/

/-! ## String helpers (executable models of the Python string operations) -/

/-- Split a character list at every occurrence of `c` (model of
`str.split(c)` on the underlying characters). -/
def splitOnCharAux (c : Char) : List Char → List Char → List (List Char)
  | [], acc => [acc.reverse]
  | x :: xs, acc =>
    if x = c then acc.reverse :: splitOnCharAux c xs []
    else splitOnCharAux c xs (x :: acc)

def splitOnChar (c : Char) (s : List Char) : List (List Char) :=
  splitOnCharAux c s []

/-- Join character lists with separator `c` (model of `c.join(parts)`). -/
def joinChar (c : Char) : List (List Char) → List Char
  | [] => []
  | [x] => x
  | x :: y :: rest => x ++ c :: joinChar c (y :: rest)

/-- Model of Python `s.rsplit(":", 2)`: split from the right at most
twice, i.e. keep the last two `":"`-separated components separate and
re-join everything before them. -/
def rsplit_colon_2 (s : String) : List String :=
  let parts := splitOnChar ':' s.data
  (if parts.length ≤ 3 then parts
   else joinChar ':' (parts.take (parts.length - 2)) :: parts.drop (parts.length - 2)).map
    String.mk

/-- Model of Python `pathlib.Path(s).name` for the non-degenerate paths
appearing in sanitizer frames: the component after the last `/`. -/
def pathBasename (s : String) : String :=
  String.mk ((splitOnChar '/' s.data).getLastD [])

/-- Decimal digit value of a character, if any. -/
def charToDigit? (c : Char) : Option Nat :=
  if '0' ≤ c ∧ c ≤ '9' then some (c.toNat - '0'.toNat) else none

def digitsToNatAux : Nat → List Char → Option Nat
  | acc, [] => some acc
  | acc, c :: cs =>
    match charToDigit? c with
    | some d => digitsToNatAux (acc * 10 + d) cs
    | none => none

/-- Model of Python `int(s)` on the digit strings produced by the
stack-frame regular expression: `some n` for a non-empty digit string,
`none` (the `ValueError` case) otherwise. -/
def strToNat? (s : String) : Option Nat :=
  match s.data with
  | [] => none
  | cs => digitsToNatAux 0 cs

/-- Test whether `needle` starts `hay`, over characters. -/
def listStartsWith : List Char → List Char → Bool
  | [], _ => true
  | _ :: _, [] => false
  | a :: as, b :: bs => a = b && listStartsWith as bs

/-- Model of Python `needle in hay` (substring containment). -/
def listContainsSub (needle : List Char) : List Char → Bool
  | [] => needle.isEmpty
  | c :: rest => listStartsWith needle (c :: rest) || listContainsSub needle rest

def strContainsSub (needle hay : String) : Bool :=
  listContainsSub needle.data hay.data

/-! ## Association-list helpers (models of Python `dict` operations) -/

/-- Model of `d.get(k)` / `d[k]` lookup on a Python dict kept as an
association list with unique keys. -/
def alookup {α : Type} (m : List (String × α)) (key : String) : Option α :=
  match m.find? (fun kv => kv.1 = key) with
  | some kv => some kv.2
  | none => none

/-- Model of `d[k] = v` (insert or overwrite). -/
def aupdate {α : Type} (m : List (String × α)) (key : String) (v : α) :
    List (String × α) :=
  if m.any (fun kv => kv.1 = key) then
    m.map (fun kv => if kv.1 = key then (kv.1, v) else kv)
  else m ++ [(key, v)]

/-- Model of `d[k].append(v)` for a dict of lists; the key is always
present at the call sites in `crash_poi.py` (it is created when the
block leader is recorded), so an absent key is a no-op here. -/
def aappend (m : List (String × List String)) (key : String) (v : String) :
    List (String × List String) :=
  m.map (fun kv => if kv.1 = key then (kv.1, kv.2 ++ [v]) else kv)

/-! ## `networkx.DiGraph`, as consumed by `poi_poi.py` -/

/-- A directed call graph: the edge list accumulated by `add_edge`.
All graphs in this code base are built solely through `add_edge`
(`POI.gen_callgraph_from_file`), so the node set is exactly the set of
edge endpoints. -/
structure DiGraph where
  edges : List (String × String)
deriving DecidableEq, Repr

def DiGraph.nodes (g : DiGraph) : List String :=
  (g.edges.map Prod.fst ++ g.edges.map Prod.snd).dedup

/-- Model of `n in g` for a `networkx` graph: node membership. -/
def DiGraph.containsNode (g : DiGraph) (n : String) : Bool :=
  g.nodes.contains n

/-- Model of `g.successors(n)`. -/
def DiGraph.successors (g : DiGraph) (n : String) : List String :=
  ((g.edges.filter (fun e => e.1 = n)).map Prod.snd).dedup

/-- Model of `g.predecessors(n)`. -/
def DiGraph.predecessors (g : DiGraph) (n : String) : List String :=
  ((g.edges.filter (fun e => e.2 = n)).map Prod.fst).dedup

/-- Embedding of `POI.gen_callgraph_from_file`: the YAML file holds a mapping
`{caller: [callee, ...]}`; the code adds the edge `(caller, callee)` for
every callee in every caller's list and nothing else.  The YAML mapping
(whose keys are unique) is modelled as an association list. -/
def gen_callgraph_from_file (obj : List (String × List String)) : DiGraph :=
  { edges := obj.flatMap (fun kv => kv.2.map (fun v => (kv.1, v))) }

/-! ## Simple-path enumeration (`networkx.all_simple_paths`) -/

/-- Depth-first enumeration of simple (node-repetition-free) paths from
`cur` to `target`, never expanding a node in `visited`; `fuel` bounds the
recursion depth (chosen large enough that it never truncates a simple
path, see `all_simple_paths`). -/
def simplePathsFrom (g : DiGraph) (target : String) :
    Nat → String → List String → List (List String)
  | 0, _, _ => []
  | fuel + 1, cur, visited =>
    if cur = target then [[cur]]
    else
      (g.successors cur).flatMap fun nxt =>
        if nxt ∈ visited then []
        else (simplePathsFrom g target fuel nxt (visited ++ [cur])).map (cur :: ·)

/-- Model of `networkx.all_simple_paths(g, source, target)`: all
duplicate-free paths from `source` to `target`.  A simple path visits
each node at most once, so `g.nodes.length + 1` fuel is never the
binding constraint. -/
def all_simple_paths (g : DiGraph) (source target : String) : List (List String) :=
  simplePathsFrom g target (g.nodes.length + 1) source []

/-! ## `POI.find_longest_paths` -/

/-- The worklist loop of `POI.find_longest_paths`: repeatedly pop the
last worklist element (`list.pop()` pops from the end), extend the
accumulated list with all its predecessors, and push the not-yet-seen
ones.  Each node is pushed at most once, so the fuel below never
truncates the loop. -/
def find_longest_paths_loop (cg : DiGraph) :
    Nat → List String → List String → List String → List String
  | 0, _, longest, _ => longest
  | fuel + 1, worklist, longest, seen =>
    match worklist.getLast? with
    | none => longest
    | some current =>
      let rest := worklist.dropLast
      let preds := cg.predecessors current
      let newly := preds.filter (fun p => ¬ p ∈ seen)
      find_longest_paths_loop cg fuel (rest ++ newly) (longest ++ preds) (seen ++ newly)

/-- Embedding of `POI.find_longest_paths`: collect the sink and every transitive
predecessor of the sink into one list, returned as a single "path". -/
def find_longest_paths (cg : DiGraph) (sink_node : String) : List (List String) :=
  if ¬ cg.containsNode sink_node then [[sink_node]]
  else
    let worklist := cg.predecessors sink_node
    [find_longest_paths_loop cg (2 * cg.nodes.length + 2) worklist
      (sink_node :: worklist) worklist]

/-! ## `POI.get_call_path_to` (the Call Path Engine) -/

/-- The entry node chosen by `_find_paths` for one harness graph:
`"LLVMFuzzerTestOneInput"` when the graph has such a node, else
`"main"`. -/
def entryNode (cg : DiGraph) : String :=
  if cg.containsNode "LLVMFuzzerTestOneInput" then "LLVMFuzzerTestOneInput" else "main"

/-- The contribution of one harness graph inside `_find_paths`: all
nodes on simple paths from the entry node to the sink when the entry
node is in the graph, otherwise the predecessor-closure fallback. -/
def findPathsStep (cg : DiGraph) (sink : String) : List String :=
  if cg.containsNode (entryNode cg) then
    (all_simple_paths cg (entryNode cg) sink).flatMap id
  else
    (find_longest_paths cg sink).flatMap id

/-- Embedding of `_find_paths` inside `POI.get_call_path_to`: start from
`[sink_funcname]`, extend with every path found per cached harness
graph, and return `list(set(call_path))`. -/
def findPaths (harness_cfg : List (String × DiGraph)) (sink : String) : List String :=
  (sink :: harness_cfg.flatMap (fun h => findPathsStep h.2 sink)).dedup

/-- Model of the `with_timeout` decorator of `poi_poi.py`: the worker
thread either finishes within the deadline (`exceeds = false`) and its
value is returned, or the deadline passes first (`exceeds = true`) and
`TimeoutError` is raised to the caller.  The numeric timeout only feeds
the wall clock, which the embedding receives as the `exceeds` flag. -/
def with_timeout {α : Type} (timeout_seconds : Nat) (exceeds : Bool)
    (compute : Unit → α) : Except Unit α :=
  if exceeds then Except.error () else Except.ok (compute ())

/-- Embedding of `POI.get_call_path_to`: run `_find_paths` under the timeout; on
`TimeoutError` return the degenerate `[sink_funcname]`. -/
def get_call_path_to (harness_cfg : List (String × DiGraph)) (sink_funcname : String)
    (timeout_seconds : Nat) (exceeds : Bool) : List String :=
  match with_timeout timeout_seconds exceeds (fun _ => findPaths harness_cfg sink_funcname) with
  | Except.ok r => r
  | Except.error _ => [sink_funcname]

/-! ## Crash-report ingestion (`crash_poi.py`)

`CrashPOI.parse_poi_from_crash_report` extracts stack-trace blocks with
`block_pattern` and, per block, the frame lines with
`line_pattern = #\d+\s+[^\s]+\s+in\s+(.+?)\s+(/\S+:\d+)`; the two regex
captures of a frame line are its function text and its location text.
The embedding starts from those captured pairs (the regex machinery is a
boundary); everything after capture — the entry-symbol breaks, the
`rsplit(":", 2)` location split, resolver submission, dedup, leader
bookkeeping and the 100-entry cap — is modelled from the code. -/

/-- One frame as captured by `line_pattern`: the function text and the
`file:line[:col...]` location text. -/
structure CrashFrame where
  func : String
  loc : String
deriving DecidableEq, Repr

/-- One entry of `self._pois` as built by the crash pipeline (the
free-form error/backtrace strings carry no logic and are omitted). -/
structure CrashPoiEntry where
  function_index_key : String
  function_contains_vulnerability : Bool
deriving DecidableEq, Repr

/-- The boundary interface of the external function resolver as used by
the crash pipeline: `resolveBT f file line` models
`get_funcindex_from_backtrace(f, Path(file).name, int(line))` (`none`
models "no index found"), and `funcnameOf k` models
`function_resolver.get(k).funcname`. -/
structure CrashResolver where
  resolveBT : String → String → Nat → Option String
  funcnameOf : String → String

/-- The mutable state of `CrashPOI` during one
`parse_poi_from_crash_report` call.  `submitted` is a ghost field
recording every `(function, file-basename, line)` triple handed to the
resolver; `crashed` records an uncaught exception (the `int()` call on a
non-numeric split component), after which no further code runs. -/
structure CrashState where
  pois : List CrashPoiEntry
  block_leaders : List String
  block_leaders_call_path : List (String × List String)
  seen : List String
  first_leader : Option String
  submitted : List (String × String × Nat)
  crashed : Bool
deriving DecidableEq, Repr

/-- The tail of the frame-loop body after a fresh (not yet seen)
identity `k` has been resolved: `seen_func_indices.add`, the
leader / `_block_leaders` / `_block_leaders_call_path` bookkeeping, the
`function_contains_vulnerability` flag from `first_leader`, and the
capped append to `_pois`.  Returns the block leader for the remaining
frames together with the new state. -/
def recordPoi (rv : CrashResolver) (k : String) (leader : Option String)
    (st : CrashState) : Option String × CrashState :=
  let st2 := { st with seen := st.seen ++ [k] }
  let funcname := rv.funcnameOf k
  let (leader', st3) :=
    match leader with
    | none =>
      (some k, { st2 with
        block_leaders := st2.block_leaders ++ [funcname],
        block_leaders_call_path := aupdate st2.block_leaders_call_path funcname [] })
    | some l =>
      (some l, { st2 with
        block_leaders_call_path :=
          aappend st2.block_leaders_call_path (rv.funcnameOf l) funcname })
  let (vuln, first') :=
    match st3.first_leader with
    | none => (true, leader')
    | some fl => (false, some fl)
  let poi : CrashPoiEntry := ⟨k, vuln⟩
  let pois' := if st3.pois.length < 100 then st3.pois ++ [poi] else st3.pois
  (leader', { st3 with first_leader := first', pois := pois' })

/-- The frame loop of `parse_poi_from_crash_report` for one block:
walk the captured frames, break at the fuzz-entry or process-entry
symbol, split the location with `rsplit(":", 2)` (a frame whose location
does not split into three parts is skipped by `except ValueError:
continue`), submit the triple to the resolver, skip unresolved or
already-seen identities, and otherwise record the POI via
`recordPoi`. -/
def processFrames (rv : CrashResolver) :
    List CrashFrame → Option String → CrashState → CrashState
  | [], _, st => st
  | f :: rest, leader, st =>
    if st.crashed then st
    else if strContainsSub "LLVMFuzzerTestOneInput" f.func then st
    else if strContainsSub "__libc_start_main" f.func then st
    else
      match rsplit_colon_2 f.loc with
      | [filepath, line_number, _] =>
        match strToNat? line_number with
        | none => { st with crashed := true }
        | some n =>
          let st1 := { st with
            submitted := st.submitted ++ [(f.func, pathBasename filepath, n)] }
          match rv.resolveBT f.func (pathBasename filepath) n with
          | none => processFrames rv rest leader st1
          | some k =>
            if k ∈ st1.seen then processFrames rv rest leader st1
            else
              let (leader', st') := recordPoi rv k leader st1
              processFrames rv rest leader' st'
      | _ => processFrames rv rest leader st

/-- Embedding of `CrashPOI.parse_poi_from_crash_report`: process every block; the
per-block `leader` starts as `None` for each block, `seen_func_indices`
and `first_leader` span the whole call. -/
def parse_poi_from_crash_report (rv : CrashResolver) (blocks : List (List CrashFrame))
    (st : CrashState) : CrashState :=
  blocks.foldl (fun s block => processFrames rv block none s) st

/-- Embedding of `CrashPOI.add_poi`: reset `_block_leaders` and
`_block_leaders_call_path` (but not `_pois`, which persists across
calls) and parse the report; `seen_func_indices` and `first_leader` are
fresh locals of the parse. -/
def crash_add_poi (rv : CrashResolver) (blocks : List (List CrashFrame))
    (pois0 : List CrashPoiEntry) : CrashState :=
  parse_poi_from_crash_report rv blocks
    { pois := pois0, block_leaders := [], block_leaders_call_path := [],
      seen := [], first_leader := none, submitted := [], crashed := false }

/-- Embedding of `CrashPOI.get_call_path_to`: no graph search and no timeout — a
fixed list built from the cached-graph shape, the sink, and the recorded
same-block call-path suffix (`self._block_leaders_call_path`). -/
def crash_get_call_path_to (harness_cfg : List (String × DiGraph))
    (block_leaders_call_path : List (String × List String)) (sink_funcname : String) :
    List String :=
  let call_path : List String :=
    match harness_cfg with
    | [(_, g)] =>
      if ¬ g.containsNode "LLVMFuzzerTestOneInput" then
        if g.containsNode "main" then ["main"] else []
      else []
    | _ => []
  call_path ++ [sink_funcname] ++
    (alookup block_leaders_call_path sink_funcname).getD []

/-! ## Coverage-gap / optimal-targets ingestion (`oss_fuzz_poi.py`) -/

/-- One entry of the `functions` list of an optimal-targets JSON report.
`is_reached` models the Python check `obj.get("is_reached", False) is
False` (a missing key behaves like `false`); the numeric coverage and
complexity metrics are carried opaquely. -/
structure OssEntry where
  raw_function_name : String
  is_reached : Bool
  function_filename : String
  source_line_begin : Nat
  source_line_end : Nat
  runtime_coverage_percent : Int
  accummulated_complexity : Int
deriving DecidableEq, Repr

/-- One entry of `self._pois` as built by
`parse_poi_from_optimal_targets`.  `src` is a ghost provenance field
recording which report entry produced the POI. -/
structure OssPoiEntry where
  function_index_key : String
  runtime_coverage_percent : Int
  accummulated_complexity : Int
  src : OssEntry
deriving DecidableEq, Repr

/-- Embedding of `OSSFuzzPOI.parse_poi_from_optimal_targets`: skip unreached entries,
skip entries with a zero start or end line, resolve via
`get_funcindex_from_json` (the oracle `resolve`, applied to the raw
function name, the resolved filename and the start line; the
`str(Path(...).resolve())` filesystem normalisation is the oracle
`resolvePath`), stop once more than 100 POIs exist, and otherwise append
the POI with its coverage and complexity metadata. -/
def parse_poi_from_optimal_targets
    (resolve : String → String → Nat → Option String)
    (resolvePath : String → String)
    (pois : List OssPoiEntry) : List OssEntry → List OssPoiEntry
  | [] => pois
  | e :: rest =>
    if e.is_reached = false then
      parse_poi_from_optimal_targets resolve resolvePath pois rest
    else
      let filename := resolvePath e.function_filename
      if e.source_line_begin = 0 ∨ e.source_line_end = 0 then
        parse_poi_from_optimal_targets resolve resolvePath pois rest
      else
        match resolve e.raw_function_name filename e.source_line_begin with
        | none => parse_poi_from_optimal_targets resolve resolvePath pois rest
        | some k =>
          if pois.length > 100 then pois
          else
            parse_poi_from_optimal_targets resolve resolvePath
              (pois ++ [⟨k, e.runtime_coverage_percent, e.accummulated_complexity, e⟩])
              rest

/-! ## `POI.get_function_index_from_poi` (`poi_poi.py`) -/

/-- The whole-program function-index entry, as read by this core
(supplied by the external indexer). -/
structure FunctionIndex where
  key : String
  funcname : String
  start_line : Nat
  end_line : Nat
  is_generated_during_build : Bool
deriving DecidableEq, Repr

/-- The Python exceptions `get_function_index_from_poi` can let escape:
the explicit `ValueError("... could not be resolved.")`, and the
`AttributeError` raised by the f-string
`f"{resolved_function_index.is_generated_during_build=}"` when
`resolved_function_index` is `None`. -/
inductive PyError where
  | valueError (msg : String)
  | attributeError
deriving DecidableEq, Repr

/-- The boundary interface of the external `FunctionResolver` as used by
`get_function_index_from_poi`.  A `none` / empty result models the
corresponding call raising an exception, which the method catches with a
bare `except` (for `find_matching_index` and `get`) or folds into an
empty candidate list (for `resolve_source_location`);
`to_source_location` models the pure helper
`function_index_to_source_location`, and `resolve_source_location`
returns the ranked candidate keys. -/
structure PoiResolver where
  find_matching_index : String → Option String
  get : String → Option FunctionIndex
  to_source_location : String → String
  resolve_source_location : String → List String

/-- Embedding of `POI.get_function_index_from_poi`, step by step:
1. fuzzy focus-scope match (`find_matching_index`); if it yields a key,
   `get` that key — on success return the index, on failure the logging
   f-string dereferences `None` and raises `AttributeError`;
2. otherwise try the string as a literal identity key (`get`);
3. otherwise derive a source location and take the top-ranked candidate
   of `resolve_source_location`; an empty candidate list raises
   `ValueError`; the final `get` of the chosen key is wrapped in
   `try/except` with `ret_val = None`, so its failure returns `None`. -/
def get_function_index_from_poi (r : PoiResolver) (function_index_str : String) :
    Except PyError (Option FunctionIndex) :=
  match r.find_matching_index function_index_str with
  | some key =>
    match r.get key with
    | some fi => Except.ok (some fi)
    | none => Except.error PyError.attributeError
  | none =>
    match r.get function_index_str with
    | some fi => Except.ok (some fi)
    | none =>
      match r.resolve_source_location (r.to_source_location function_index_str) with
      | [] => Except.error (PyError.valueError
          (function_index_str ++ " could not be resolved."))
      | actual_key :: _ => Except.ok (r.get actual_key)

/-! ## Graph reachability and path lemmas -/

/-- Reachability along the directed edges of a call graph. -/
inductive Reaches (g : DiGraph) : String → String → Prop
  | refl (a : String) : Reaches g a a
  | step {a b c : String} : (a, b) ∈ g.edges → Reaches g b c → Reaches g a c

/-- A concrete walk along graph edges from a start node to an end node,
listing every visited node (start first, end last). -/
inductive EdgePath (g : DiGraph) : String → String → List String → Prop
  | single (a : String) : EdgePath g a a [a]
  | cons {a b c : String} {p : List String} :
      (a, b) ∈ g.edges → EdgePath g b c p → EdgePath g a c (a :: p)

theorem mem_edges_fst_nodes {g : DiGraph} {a b : String} (h : (a, b) ∈ g.edges) :
    a ∈ g.nodes := by
  simp only [DiGraph.nodes, List.mem_dedup, List.mem_append, List.mem_map]
  exact Or.inl ⟨(a, b), h, rfl⟩

theorem mem_edges_snd_nodes {g : DiGraph} {a b : String} (h : (a, b) ∈ g.edges) :
    b ∈ g.nodes := by
  simp only [DiGraph.nodes, List.mem_dedup, List.mem_append, List.mem_map]
  exact Or.inr ⟨(a, b), h, rfl⟩

theorem mem_successors_nodes {g : DiGraph} {a b : String} (h : b ∈ g.successors a) :
    b ∈ g.nodes := by
  simp only [DiGraph.successors, List.mem_dedup, List.mem_map, List.mem_filter] at h
  obtain ⟨e, ⟨he, _⟩, hm⟩ := h
  subst hm
  exact mem_edges_snd_nodes (a := e.1) (by simpa using he)

theorem mem_predecessors_nodes {g : DiGraph} {a b : String} (h : a ∈ g.predecessors b) :
    a ∈ g.nodes := by
  simp only [DiGraph.predecessors, List.mem_dedup, List.mem_map, List.mem_filter] at h
  obtain ⟨e, ⟨he, _⟩, hm⟩ := h
  subst hm
  exact mem_edges_fst_nodes (b := e.2) (by simpa using he)

theorem edge_mem_successors {g : DiGraph} {a b : String} (h : (a, b) ∈ g.edges) :
    b ∈ g.successors a := by
  simp only [DiGraph.successors, List.mem_dedup, List.mem_map, List.mem_filter]
  exact ⟨(a, b), ⟨h, by simp⟩, rfl⟩

theorem containsNode_iff {g : DiGraph} {n : String} :
    g.containsNode n = true ↔ n ∈ g.nodes := by
  simp [DiGraph.containsNode]

theorem EdgePath.target_mem {g : DiGraph} {a c : String} {p : List String}
    (h : EdgePath g a c p) : c ∈ p := by
  induction h with
  | single a => simp
  | cons _ _ ih => simp [ih]

theorem EdgePath.start_cons {g : DiGraph} {a c : String} {p : List String}
    (h : EdgePath g a c p) : ∃ q, p = a :: q := by
  cases h with
  | single a => exact ⟨[], rfl⟩
  | cons _ hp => exact ⟨_, rfl⟩

theorem EdgePath.mem_nodes {g : DiGraph} {a c : String} {p : List String}
    (h : EdgePath g a c p) (ha : a ∈ g.nodes) : ∀ x ∈ p, x ∈ g.nodes := by
  induction h with
  | single a => intro x hx; simp at hx; simpa [hx] using ha
  | cons e _ ih =>
    intro x hx
    rcases List.mem_cons.mp hx with hx | hx
    · simpa [hx] using ha
    · exact ih (mem_edges_snd_nodes e) x hx

theorem edgePath_suffix {g : DiGraph} {b c a : String} {p : List String}
    (h : EdgePath g b c p) (ha : a ∈ p) : ∃ q, q <:+ p ∧ EdgePath g a c q := by
  induction h with
  | single x =>
    simp at ha
    subst ha
    exact ⟨[a], List.suffix_refl _, EdgePath.single a⟩
  | cons e hp ih =>
    rename_i x y z p'
    rcases List.mem_cons.mp ha with hax | hax
    · subst hax
      exact ⟨a :: p', List.suffix_refl _, EdgePath.cons e hp⟩
    · obtain ⟨q, hsuf, hq⟩ := ih hax
      exact ⟨q, hsuf.trans (List.suffix_cons _ _), hq⟩

theorem reaches_edgePath_nodup {g : DiGraph} {s t : String} (h : Reaches g s t) :
    ∃ p, EdgePath g s t p ∧ p.Nodup := by
  induction h with
  | refl a => exact ⟨[a], EdgePath.single a, by simp⟩
  | step e hr ih =>
    rename_i a b c
    obtain ⟨p, hp, hnd⟩ := ih
    by_cases hmem : a ∈ p
    · obtain ⟨q, hsuf, hq⟩ := edgePath_suffix hp hmem
      exact ⟨q, hq, hnd.sublist hsuf.sublist⟩
    · exact ⟨a :: p, EdgePath.cons e hp, List.nodup_cons.mpr ⟨hmem, hnd⟩⟩

theorem reaches_src_mem_nodes {g : DiGraph} {s t : String} (h : Reaches g s t)
    (ht : t ∈ g.nodes) : s ∈ g.nodes := by
  cases h with
  | refl => exact ht
  | step e _ => exact mem_edges_fst_nodes e

theorem simplePathsFrom_sound {g : DiGraph} {t : String} :
    ∀ (fuel : Nat) (cur : String) (vis : List String) (p : List String),
      p ∈ simplePathsFrom g t fuel cur vis → ∀ x ∈ p, x = cur ∨ x ∈ g.nodes := by
  intro fuel
  induction fuel with
  | zero => intro cur vis p hp; simp [simplePathsFrom] at hp
  | succ n ih =>
    intro cur vis p hp x hx
    rw [simplePathsFrom] at hp
    by_cases hc : cur = t
    · rw [if_pos hc] at hp
      simp at hp
      subst hp
      simp at hx
      exact Or.inl hx
    · rw [if_neg hc] at hp
      rcases List.mem_flatMap.mp hp with ⟨nxt, hnxt, hpm⟩
      by_cases hv : nxt ∈ vis
      · rw [if_pos hv] at hpm; simp at hpm
      · rw [if_neg hv] at hpm
        rcases List.mem_map.mp hpm with ⟨q, hq, hqe⟩
        subst hqe
        rcases List.mem_cons.mp hx with hx | hx
        · exact Or.inl hx
        · rcases ih nxt (vis ++ [cur]) q hq x hx with h | h
          · exact Or.inr (h ▸ mem_successors_nodes hnxt)
          · exact Or.inr h

theorem simplePathsFrom_shape {g : DiGraph} {t : String} :
    ∀ (fuel : Nat) (cur : String) (vis : List String) (p : List String),
      p ∈ simplePathsFrom g t fuel cur vis → ∃ q, p = cur :: q ∧ t ∈ p := by
  intro fuel
  induction fuel with
  | zero => intro cur vis p hp; simp [simplePathsFrom] at hp
  | succ n ih =>
    intro cur vis p hp
    rw [simplePathsFrom] at hp
    by_cases hc : cur = t
    · rw [if_pos hc] at hp
      simp at hp
      subst hp
      exact ⟨[], rfl, by simp [hc]⟩
    · rw [if_neg hc] at hp
      rcases List.mem_flatMap.mp hp with ⟨nxt, _, hpm⟩
      by_cases hv : nxt ∈ vis
      · rw [if_pos hv] at hpm; simp at hpm
      · rw [if_neg hv] at hpm
        rcases List.mem_map.mp hpm with ⟨q, hq, hqe⟩
        subst hqe
        obtain ⟨q', _, htq⟩ := ih nxt (vis ++ [cur]) q hq
        exact ⟨q, rfl, List.mem_cons_of_mem _ htq⟩

theorem simplePathsFrom_complete {g : DiGraph} {t : String} :
    ∀ (fuel : Nat) (p : List String) (cur : String) (vis : List String),
      EdgePath g cur t p → p.Nodup → (∀ x ∈ p, x ∉ vis) → p.length ≤ fuel →
      p ∈ simplePathsFrom g t fuel cur vis := by
  intro fuel
  induction fuel with
  | zero =>
    intro p cur vis hp _ _ hlen
    obtain ⟨q, hq⟩ := hp.start_cons
    subst hq
    simp at hlen
  | succ n ih =>
    intro p cur vis hp hnd hdis hlen
    cases hp with
    | single =>
      rw [simplePathsFrom, if_pos rfl]
      simp
    | cons e hp' =>
      rename_i b p'
      have htp' : t ∈ p' := hp'.target_mem
      have hcur_notin : cur ∉ p' := (List.nodup_cons.mp hnd).1
      have hct : cur ≠ t := fun h => hcur_notin (h ▸ htp')
      rw [simplePathsFrom, if_neg hct]
      apply List.mem_flatMap.mpr
      refine ⟨b, edge_mem_successors e, ?_⟩
      obtain ⟨q', hq'⟩ := hp'.start_cons
      have hbvis : b ∉ vis := hdis b (by simp [hq'])
      rw [if_neg hbvis]
      apply List.mem_map.mpr
      refine ⟨p', ih p' b (vis ++ [cur]) hp' (List.nodup_cons.mp hnd).2 ?_ ?_, rfl⟩
      · intro x hx
        simp only [List.mem_append, List.mem_singleton]
        rintro (hxv | rfl)
        · exact hdis x (List.mem_cons_of_mem _ hx) hxv
        · exact hcur_notin hx
      · simpa using Nat.le_of_succ_le_succ (by simpa using hlen)

theorem edgePath_length_le {g : DiGraph} {s t : String} {p : List String}
    (hp : EdgePath g s t p) (hnd : p.Nodup) (hs : s ∈ g.nodes) :
    p.length ≤ g.nodes.length :=
  (List.subperm_of_subset hnd (fun x hx => hp.mem_nodes hs x hx)).length_le

theorem exists_mem_all_simple_paths {g : DiGraph} {s t : String}
    (h : Reaches g s t) (hs : s ∈ g.nodes) :
    ∃ p, p ∈ all_simple_paths g s t ∧ ∃ q, p = s :: q ∧ t ∈ p := by
  obtain ⟨p, hp, hnd⟩ := reaches_edgePath_nodup h
  have hlen : p.length ≤ g.nodes.length + 1 :=
    Nat.le_succ_of_le (edgePath_length_le hp hnd hs)
  have hmem : p ∈ simplePathsFrom g t (g.nodes.length + 1) s [] :=
    simplePathsFrom_complete _ p s [] hp hnd (by simp) hlen
  exact ⟨p, hmem, simplePathsFrom_shape _ s [] p hmem⟩

/-! ## Soundness of the Call Path Engine's result -/

theorem find_longest_paths_loop_sound {cg : DiGraph} :
    ∀ (fuel : Nat) (wl longest seen : List String) (x : String),
      x ∈ find_longest_paths_loop cg fuel wl longest seen →
      x ∈ longest ∨ x ∈ cg.nodes := by
  intro fuel
  induction fuel with
  | zero => intro wl longest seen x hx; exact Or.inl hx
  | succ n ih =>
    intro wl longest seen x hx
    rw [find_longest_paths_loop] at hx
    rcases hcur : wl.getLast? with _ | current
    · rw [hcur] at hx; exact Or.inl hx
    · rw [hcur] at hx
      rcases ih _ _ _ x hx with h | h
      · rcases List.mem_append.mp h with h | h
        · exact Or.inl h
        · exact Or.inr (mem_predecessors_nodes h)
      · exact Or.inr h

theorem find_longest_paths_sound {cg : DiGraph} {s x : String}
    (h : x ∈ (find_longest_paths cg s).flatMap id) : x = s ∨ x ∈ cg.nodes := by
  rw [find_longest_paths] at h
  by_cases hc : ¬ cg.containsNode s
  · rw [if_pos hc] at h
    simp at h
    exact Or.inl h
  · rw [if_neg hc] at h
    simp only [List.flatMap_singleton, id] at h
    rcases find_longest_paths_loop_sound _ _ _ _ x h with hm | hm
    · rcases List.mem_cons.mp hm with hm | hm
      · exact Or.inl hm
      · exact Or.inr (mem_predecessors_nodes hm)
    · exact Or.inr hm

theorem findPathsStep_sound {cg : DiGraph} {sink x : String}
    (h : x ∈ findPathsStep cg sink) : x = sink ∨ x ∈ cg.nodes := by
  rw [findPathsStep] at h
  by_cases hc : cg.containsNode (entryNode cg)
  · rw [if_pos hc] at h
    rcases List.mem_flatMap.mp h with ⟨p, hp, hxp⟩
    rcases simplePathsFrom_sound _ _ _ p hp x (by simpa using hxp) with hx | hx
    · exact Or.inr (hx ▸ containsNode_iff.mp hc)
    · exact Or.inr hx
  · rw [if_neg hc] at h
    exact find_longest_paths_sound h

theorem mem_findPaths {harness_cfg : List (String × DiGraph)} {sink x : String} :
    x ∈ findPaths harness_cfg sink ↔
      x = sink ∨ ∃ hg ∈ harness_cfg, x ∈ findPathsStep hg.2 sink := by
  simp [findPaths, List.mem_dedup, List.mem_flatMap]

theorem sink_mem_get_call_path_to (harness_cfg : List (String × DiGraph))
    (sink : String) (t : Nat) (exceeds : Bool) :
    sink ∈ get_call_path_to harness_cfg sink t exceeds := by
  cases exceeds with
  | true => simp [get_call_path_to, with_timeout]
  | false =>
    show sink ∈ findPaths harness_cfg sink
    exact mem_findPaths.mpr (Or.inl rfl)

/-! ## State invariants of the crash-report ingestion -/

theorem recordPoi_seen (rv : CrashResolver) (k : String) (leader : Option String)
    (st : CrashState) : ((recordPoi rv k leader st).2).seen = st.seen ++ [k] := by
  cases leader <;> rcases hfl : st.first_leader with _ | fl <;> simp [recordPoi, hfl]

theorem recordPoi_submitted (rv : CrashResolver) (k : String) (leader : Option String)
    (st : CrashState) : ((recordPoi rv k leader st).2).submitted = st.submitted := by
  cases leader <;> rcases hfl : st.first_leader with _ | fl <;> simp [recordPoi, hfl]

theorem recordPoi_crashed (rv : CrashResolver) (k : String) (leader : Option String)
    (st : CrashState) : ((recordPoi rv k leader st).2).crashed = st.crashed := by
  cases leader <;> rcases hfl : st.first_leader with _ | fl <;> simp [recordPoi, hfl]

theorem recordPoi_pois (rv : CrashResolver) (k : String) (leader : Option String)
    (st : CrashState) :
    ((recordPoi rv k leader st).2).pois =
      if st.pois.length < 100 then st.pois ++ [⟨k, st.first_leader.isNone⟩]
      else st.pois := by
  cases leader <;> rcases hfl : st.first_leader with _ | fl <;> simp [recordPoi, hfl]

/-- Every state change performed by the frame loop is one of: appending
a submission record, setting the crash flag, or recording a fresh POI
via `recordPoi`.  Any state property closed under those three
transitions is preserved by `processFrames`. -/
theorem processFrames_preserve (rv : CrashResolver) (P : CrashState → Prop)
    (hsub : ∀ (st : CrashState) (x : String × String × Nat), P st →
      P { st with submitted := st.submitted ++ [x] })
    (hcrash : ∀ st : CrashState, P st → P { st with crashed := true })
    (hrec : ∀ (st : CrashState) (k : String) (leader : Option String),
      k ∉ st.seen → P st → P (recordPoi rv k leader st).2) :
    ∀ (frames : List CrashFrame) (leader : Option String) (st : CrashState),
      P st → P (processFrames rv frames leader st) := by
  intro frames
  induction frames with
  | nil => intro leader st hP; simpa [processFrames] using hP
  | cons f rest ih =>
    intro leader st hP
    rw [processFrames]
    by_cases h1 : st.crashed = true
    · rw [if_pos h1]; exact hP
    · rw [if_neg h1]
      by_cases h2 : strContainsSub "LLVMFuzzerTestOneInput" f.func = true
      · rw [if_pos h2]; exact hP
      · rw [if_neg h2]
        by_cases h3 : strContainsSub "__libc_start_main" f.func = true
        · rw [if_pos h3]; exact hP
        · rw [if_neg h3]
          rcases hsp : rsplit_colon_2 f.loc with _ | ⟨fp, _ | ⟨ln, _ | ⟨c3, _ | _⟩⟩⟩ <;>
            simp only [hsp]
          · exact ih leader st hP
          · exact ih leader st hP
          · exact ih leader st hP
          · rcases hn : strToNat? ln with _ | n <;> simp only [hn]
            · exact hcrash st hP
            · rcases hk : rv.resolveBT f.func (pathBasename fp) n with _ | k <;>
                simp only [hk]
              · exact ih leader _ (hsub st _ hP)
              · by_cases h4 : k ∈ ({ st with submitted := st.submitted ++
                    [(f.func, pathBasename fp, n)] } : CrashState).seen
                · rw [if_pos h4]
                  exact ih leader _ (hsub st _ hP)
                · rw [if_neg h4]
                  rcases hrp : recordPoi rv k leader { st with
                    submitted := st.submitted ++ [(f.func, pathBasename fp, n)] }
                    with ⟨leader', st'⟩
                  simp only [hrp]
                  have hst' : P st' := by
                    have := hrec { st with submitted := st.submitted ++
                      [(f.func, pathBasename fp, n)] } k leader
                      (by simpa using h4) (hsub st _ hP)
                    rw [hrp] at this
                    exact this
                  exact ih leader' st' hst'
          · exact ih leader st hP

/-- Lift `processFrames_preserve` over all blocks of one
`parse_poi_from_crash_report` call. -/
theorem parse_crash_preserve (rv : CrashResolver) (P : CrashState → Prop)
    (hsub : ∀ (st : CrashState) (x : String × String × Nat), P st →
      P { st with submitted := st.submitted ++ [x] })
    (hcrash : ∀ st : CrashState, P st → P { st with crashed := true })
    (hrec : ∀ (st : CrashState) (k : String) (leader : Option String),
      k ∉ st.seen → P st → P (recordPoi rv k leader st).2) :
    ∀ (blocks : List (List CrashFrame)) (st : CrashState),
      P st → P (parse_poi_from_crash_report rv blocks st) := by
  intro blocks
  induction blocks with
  | nil => intro st hP; simpa [parse_poi_from_crash_report] using hP
  | cons block rest ih =>
    intro st hP
    show P (List.foldl _ _ (block :: rest))
    rw [List.foldl_cons]
    exact ih _ (processFrames_preserve rv P hsub hcrash hrec block none st hP)

/-- The dedup invariant of one crash-report ingestion run, relative to
the `n0` POIs already in the catalog when the run starts: the keys of
the newly produced POIs are pairwise distinct, every new key has been
recorded in `seen_func_indices`, and every recorded key either owns a
new POI or was recorded after the 100-entry cap had been reached. -/
def CrashDedupInv (n0 : Nat) (st : CrashState) : Prop :=
  n0 ≤ st.pois.length ∧
  ((st.pois.drop n0).map (fun p => p.function_index_key)).Nodup ∧
  (∀ k ∈ (st.pois.drop n0).map (fun p => p.function_index_key), k ∈ st.seen) ∧
  (∀ k ∈ st.seen,
    k ∈ (st.pois.drop n0).map (fun p => p.function_index_key) ∨ 100 ≤ st.pois.length)

theorem crashDedupInv_recordPoi (rv : CrashResolver) (n0 : Nat) (st : CrashState)
    (k : String) (leader : Option String) (hk : k ∉ st.seen)
    (h : CrashDedupInv n0 st) : CrashDedupInv n0 (recordPoi rv k leader st).2 := by
  obtain ⟨hlen, hnd, hsub, hcov⟩ := h
  rw [CrashDedupInv, recordPoi_seen, recordPoi_pois]
  by_cases hcap : st.pois.length < 100
  · rw [if_pos hcap]
    have hdrop : (st.pois ++ [(⟨k, st.first_leader.isNone⟩ : CrashPoiEntry)]).drop n0 =
        st.pois.drop n0 ++ [⟨k, st.first_leader.isNone⟩] :=
      List.drop_append_of_le_length hlen
    refine ⟨by simpa using Nat.le_succ_of_le hlen, ?_, ?_, ?_⟩
    · rw [hdrop]
      simp only [List.map_append, List.map_cons, List.map_nil]
      rw [List.nodup_append]
      refine ⟨hnd, by simp, ?_⟩
      intro x hx
      simp only [List.mem_cons, List.not_mem_nil, or_false]
      intro hxk
      exact hk (hxk ▸ hsub x hx)
    · intro x hx
      rw [hdrop] at hx
      simp only [List.map_append, List.map_cons, List.map_nil, List.mem_append,
        List.mem_cons, List.not_mem_nil, or_false] at hx
      rcases hx with hx | hx
      · exact List.mem_append_left _ (hsub x hx)
      · simp [hx]
    · intro x hx
      rcases List.mem_append.mp hx with hx | hx
      · rcases hcov x hx with hc | hc
        · left
          rw [hdrop]
          simpa using Or.inl hc
        · right
          simp only [List.length_append, List.length_cons, List.length_nil]
          omega
      · left
        rw [hdrop]
        simp at hx
        simp [hx]
  · rw [if_neg hcap]
    refine ⟨hlen, hnd, ?_, ?_⟩
    · intro x hx
      exact List.mem_append_left _ (hsub x hx)
    · intro x hx
      rcases List.mem_append.mp hx with hx | hx
      · exact hcov x hx
      · right
        simp at hx
        omega

theorem crash_add_poi_dedup (rv : CrashResolver) (blocks : List (List CrashFrame))
    (pois0 : List CrashPoiEntry) :
    CrashDedupInv pois0.length (crash_add_poi rv blocks pois0) := by
  apply parse_crash_preserve rv (CrashDedupInv pois0.length)
  · intro st x h
    exact h
  · intro st h
    exact h
  · intro st k leader hk h
    exact crashDedupInv_recordPoi rv _ st k leader hk h
  · refine ⟨Nat.le_refl _, ?_, ?_, ?_⟩
    · rw [List.drop_length pois0]
      simp
    · rw [List.drop_length pois0]
      simp
    · simp

theorem crash_add_poi_cap (rv : CrashResolver) (blocks : List (List CrashFrame))
    (pois0 : List CrashPoiEntry) (h0 : pois0.length ≤ 100) :
    (crash_add_poi rv blocks pois0).pois.length ≤ 100 := by
  apply parse_crash_preserve rv (fun st => st.pois.length ≤ 100)
  · intro st x h
    exact h
  · intro st h
    exact h
  · intro st k leader _ h
    rw [recordPoi_pois]
    by_cases hcap : st.pois.length < 100
    · rw [if_pos hcap]
      simp only [List.length_append, List.length_cons, List.length_nil]
      omega
    · rw [if_neg hcap]
      exact h
  · exact h0

theorem processFrames_submitted_mono (rv : CrashResolver) (x : String × String × Nat) :
    ∀ (frames : List CrashFrame) (leader : Option String) (st : CrashState),
      x ∈ st.submitted → x ∈ (processFrames rv frames leader st).submitted := by
  intro frames leader st h
  apply processFrames_preserve rv (fun st => x ∈ st.submitted)
  · intro st y h
    exact List.mem_append_left _ h
  · intro st h
    exact h
  · intro st k leader _ h
    rw [recordPoi_submitted]
    exact h
  · exact h

/-- A frame at the head of the remaining walk whose location splits into
`file:line:col` (and whose line is numeric) is always submitted to the
resolver, and the submission record survives the rest of the block. -/
theorem processFrames_submits (rv : CrashResolver) (f : CrashFrame)
    (rest : List CrashFrame) (leader : Option String) (st : CrashState)
    (filepath line_number col : String) (n : Nat)
    (hcr : st.crashed = false)
    (hstop1 : strContainsSub "LLVMFuzzerTestOneInput" f.func = false)
    (hstop2 : strContainsSub "__libc_start_main" f.func = false)
    (hsp : rsplit_colon_2 f.loc = [filepath, line_number, col])
    (hn : strToNat? line_number = some n) :
    (f.func, pathBasename filepath, n) ∈
      (processFrames rv (f :: rest) leader st).submitted := by
  rw [processFrames]
  rw [if_neg (by simp [hcr]), if_neg (by simp [hstop1]), if_neg (by simp [hstop2])]
  simp only [hsp, hn]
  have hmem : (f.func, pathBasename filepath, n) ∈
      ({ st with submitted := st.submitted ++
        [(f.func, pathBasename filepath, n)] } : CrashState).submitted := by
    simp
  rcases hk : rv.resolveBT f.func (pathBasename filepath) n with _ | k <;> simp only [hk]
  · exact processFrames_submitted_mono rv _ rest leader _ hmem
  · by_cases h4 : k ∈ ({ st with submitted := st.submitted ++
        [(f.func, pathBasename filepath, n)] } : CrashState).seen
    · rw [if_pos h4]
      exact processFrames_submitted_mono rv _ rest leader _ hmem
    · rw [if_neg h4]
      rcases hrp : recordPoi rv k leader { st with
        submitted := st.submitted ++ [(f.func, pathBasename filepath, n)] }
        with ⟨leader', st'⟩
      simp only [hrp]
      apply processFrames_submitted_mono rv _ rest leader' st'
      have : st'.submitted = ({ st with submitted := st.submitted ++
          [(f.func, pathBasename filepath, n)] } : CrashState).submitted := by
        have := recordPoi_submitted rv k leader { st with
          submitted := st.submitted ++ [(f.func, pathBasename filepath, n)] }
        rw [hrp] at this
        exact this
      rw [this]
      exact hmem

/-! ## Invariants of the optimal-targets ingestion -/

theorem parse_optimal_targets_cap
    (resolve : String → String → Nat → Option String) (resolvePath : String → String) :
    ∀ (entries : List OssEntry) (pois : List OssPoiEntry), pois.length ≤ 101 →
      (parse_poi_from_optimal_targets resolve resolvePath pois entries).length ≤ 101 := by
  intro entries
  induction entries with
  | nil => intro pois h; simpa [parse_poi_from_optimal_targets] using h
  | cons e rest ih =>
    intro pois h
    rw [parse_poi_from_optimal_targets]
    by_cases h1 : e.is_reached = false
    · rw [if_pos h1]; exact ih pois h
    · rw [if_neg h1]
      by_cases h2 : e.source_line_begin = 0 ∨ e.source_line_end = 0
      · rw [if_pos h2]; exact ih pois h
      · rw [if_neg h2]
        rcases hk : resolve e.raw_function_name (resolvePath e.function_filename)
            e.source_line_begin with _ | k <;> simp only [hk]
        · exact ih pois h
        · by_cases h3 : pois.length > 100
          · rw [if_pos h3]; exact h
          · rw [if_neg h3]
            apply ih
            simp only [List.length_append, List.length_cons, List.length_nil]
            omega

/-- Provenance of a POI produced by `parse_poi_from_optimal_targets`:
its ghost source entry is in the report, was flagged reached, had
non-zero start and end lines, resolved to the POI's key, and its
coverage and complexity metrics were copied into the POI. -/
def OssGoodPoi (resolve : String → String → Nat → Option String)
    (resolvePath : String → String) (entries : List OssEntry) (p : OssPoiEntry) : Prop :=
  p.src ∈ entries ∧ p.src.is_reached = true ∧ p.src.source_line_begin ≠ 0 ∧
  p.src.source_line_end ≠ 0 ∧
  p.runtime_coverage_percent = p.src.runtime_coverage_percent ∧
  p.accummulated_complexity = p.src.accummulated_complexity ∧
  resolve p.src.raw_function_name (resolvePath p.src.function_filename)
    p.src.source_line_begin = some p.function_index_key

theorem parse_optimal_targets_sound
    (resolve : String → String → Nat → Option String) (resolvePath : String → String) :
    ∀ (entries : List OssEntry) (pois : List OssPoiEntry) (p : OssPoiEntry),
      p ∈ parse_poi_from_optimal_targets resolve resolvePath pois entries →
      p ∈ pois ∨ OssGoodPoi resolve resolvePath entries p := by
  intro entries
  induction entries with
  | nil =>
    intro pois p hp
    rw [parse_poi_from_optimal_targets] at hp
    exact Or.inl hp
  | cons e rest ih =>
    intro pois p hp
    have weaken : p ∈ pois ∨ OssGoodPoi resolve resolvePath rest p →
        p ∈ pois ∨ OssGoodPoi resolve resolvePath (e :: rest) p := by
      rintro (h | h)
      · exact Or.inl h
      · exact Or.inr ⟨List.mem_cons_of_mem _ h.1, h.2.1, h.2.2.1, h.2.2.2.1,
          h.2.2.2.2.1, h.2.2.2.2.2.1, h.2.2.2.2.2.2⟩
    rw [parse_poi_from_optimal_targets] at hp
    by_cases h1 : e.is_reached = false
    · rw [if_pos h1] at hp; exact weaken (ih pois p hp)
    · rw [if_neg h1] at hp
      by_cases h2 : e.source_line_begin = 0 ∨ e.source_line_end = 0
      · rw [if_pos h2] at hp; exact weaken (ih pois p hp)
      · rw [if_neg h2] at hp
        rcases hk : resolve e.raw_function_name (resolvePath e.function_filename)
            e.source_line_begin with _ | k <;> simp only [hk] at hp
        · exact weaken (ih pois p hp)
        · by_cases h3 : pois.length > 100
          · rw [if_pos h3] at hp; exact Or.inl hp
          · rw [if_neg h3] at hp
            rcases ih _ p hp with hmem | hgood
            · rcases List.mem_append.mp hmem with hmem | hmem
              · exact Or.inl hmem
              · right
                simp only [List.mem_cons, List.not_mem_nil, or_false] at hmem
                subst hmem
                refine ⟨List.mem_cons_self _ _, ?_, ?_, ?_, rfl, rfl, hk⟩
                · simpa using h1
                · intro hz; exact h2 (Or.inl hz)
                · intro hz; exact h2 (Or.inr hz)
            · exact weaken (Or.inr hgood)

/-! ## Concrete fixtures used by witnesses and counterexamples -/

/-- A resolver whose backtrace lookup returns the frame's function text
as the identity key and whose `funcname` accessor is the identity. -/
def rvW : CrashResolver := ⟨fun f _ _ => some f, fun s => s⟩

/-- The synthetic call graph of the end-to-end scenario:
`{"LLVMFuzzerTestOneInput": ["a"], "a": ["b", "c"], "b": ["sink"], "c": []}`. -/
def cgC5 : DiGraph := gen_callgraph_from_file
  [("LLVMFuzzerTestOneInput", ["a"]), ("a", ["b", "c"]), ("b", ["sink"]), ("c", [])]

/-- A single stack-trace block of 102 frames: 101 frames with pairwise
distinct function names `"0"`..`"100"`, then a second frame for function
`"100"`; under `rvW` every frame resolves, to the identity equal to its
function name. -/
def framesCap : List CrashFrame :=
  (List.range 101).map (fun i => ⟨toString i, "/a.c:12:3"⟩) ++ [⟨"100", "/a.c:12:3"⟩]

/-- A well-formed optimal-targets report entry: reached, non-zero line
range, with coverage and complexity metrics. -/
def entryReached : OssEntry := ⟨"f", true, "/a.c", 1, 2, 50, 7⟩

theorem reachesC5 : Reaches cgC5 (entryNode cgC5) "sink" := by
  have h : entryNode cgC5 = "LLVMFuzzerTestOneInput" := by decide
  rw [h]
  exact Reaches.step (show ("LLVMFuzzerTestOneInput", "a") ∈ cgC5.edges by decide)
    (Reaches.step (show ("a", "b") ∈ cgC5.edges by decide)
      (Reaches.step (show ("b", "sink") ∈ cgC5.edges by decide) (Reaches.refl "sink")))

/-! ## The claims -/

/-- C1, counterexample.  The claim says every catalog variant holds at
most 100 POIs after `add_poi`.  For the optimal-targets variant the cap
check `if len(self._pois) > 100: break` runs before the append, so a
report of 102 resolvable reached entries leaves 101 POIs in the catalog:
the check only fires once the count already exceeds 100. -/
theorem claim1_counterexample :
    (parse_poi_from_optimal_targets (fun _ _ _ => some "k") (fun s => s) []
      (List.replicate 102 entryReached)).length = 101 := by decide

/-- C1, amended: the crash-report variant (whose guard is
`len(self._pois) < 100` at insertion time) keeps the catalog at no more
than 100 entries, while the optimal-targets variant (whose guard
`> 100` runs before insertion) keeps it at no more than 101 entries;
beyond the respective bound entries are dropped, not queued. -/
theorem claim1_cap_amended :
    (∀ (rv : CrashResolver) (blocks : List (List CrashFrame))
      (pois0 : List CrashPoiEntry), pois0.length ≤ 100 →
      (crash_add_poi rv blocks pois0).pois.length ≤ 100) ∧
    (∀ (resolve : String → String → Nat → Option String)
      (resolvePath : String → String) (pois0 : List OssPoiEntry)
      (entries : List OssEntry), pois0.length ≤ 101 →
      (parse_poi_from_optimal_targets resolve resolvePath pois0 entries).length ≤ 101) :=
  ⟨fun rv blocks pois0 h => crash_add_poi_cap rv blocks pois0 h,
   fun resolve rp pois0 entries h => parse_optimal_targets_cap resolve rp entries pois0 h⟩

/-- Witness for the amended C1 at concrete inputs. -/
theorem claim1_cap_amended_witness :
    (crash_add_poi rvW [[⟨"foo", "/a.c:1:2"⟩]] []).pois.length ≤ 100 ∧
    (parse_poi_from_optimal_targets (fun _ _ _ => some "k") (fun s => s) []
      (List.replicate 102 entryReached)).length ≤ 101 :=
  ⟨claim1_cap_amended.1 rvW [[⟨"foo", "/a.c:1:2"⟩]] [] (by decide),
   claim1_cap_amended.2 (fun _ _ _ => some "k") (fun s => s) []
     (List.replicate 102 entryReached) (by decide)⟩

/-- C2: whenever the `_find_paths` computation exceeds the timeout (for
any cached graphs, any sink and any timeout value), `get_call_path_to`
catches the `TimeoutError` raised by the `with_timeout` wrapper and
returns exactly the one-element list `[sink_funcname]` — never an empty
or truncated result, and the timeout never reaches the caller as an
error. -/
theorem claim2_timeout_degenerate (harness_cfg : List (String × DiGraph))
    (sink_funcname : String) (timeout_seconds : Nat) :
    get_call_path_to harness_cfg sink_funcname timeout_seconds true = [sink_funcname] :=
  rfl

/-- C3: for a cached harness graph `g` whose sink is a node reachable
from the canonical entry node (`"LLVMFuzzerTestOneInput"` if present,
else `"main"`), the completed (non-timed-out) result of
`get_call_path_to` contains both the entry node and the sink, every
returned name is a node of some cached harness graph, and — for
arbitrary caches, sinks and timeout outcomes — the sink's own name is
always in the result. -/
theorem claim3_call_path_soundness (harness_cfg : List (String × DiGraph))
    (hname : String) (g : DiGraph) (sink : String) (t : Nat)
    (hmem : (hname, g) ∈ harness_cfg) (hsink : sink ∈ g.nodes)
    (hreach : Reaches g (entryNode g) sink) :
    (entryNode g ∈ get_call_path_to harness_cfg sink t false ∧
     sink ∈ get_call_path_to harness_cfg sink t false) ∧
    (∀ x ∈ get_call_path_to harness_cfg sink t false,
      ∃ hg ∈ harness_cfg, x ∈ hg.2.nodes) ∧
    (∀ (cfgs : List (String × DiGraph)) (s : String) (t' : Nat) (ex : Bool),
      s ∈ get_call_path_to cfgs s t' ex) := by
  have hres : get_call_path_to harness_cfg sink t false = findPaths harness_cfg sink := rfl
  have hentry : entryNode g ∈ g.nodes := reaches_src_mem_nodes hreach hsink
  have hcont : g.containsNode (entryNode g) = true := containsNode_iff.mpr hentry
  refine ⟨⟨?_, ?_⟩, ?_, ?_⟩
  · rw [hres]
    apply mem_findPaths.mpr
    refine Or.inr ⟨(hname, g), hmem, ?_⟩
    rw [findPathsStep, if_pos hcont]
    obtain ⟨p, hp, q, hq, _⟩ := exists_mem_all_simple_paths hreach hentry
    exact List.mem_flatMap.mpr ⟨p, hp, by simp [hq]⟩
  · rw [hres]
    exact mem_findPaths.mpr (Or.inl rfl)
  · intro x hx
    rw [hres] at hx
    rcases mem_findPaths.mp hx with hx | ⟨hg, hhg, hstep⟩
    · exact ⟨(hname, g), hmem, hx ▸ hsink⟩
    · rcases findPathsStep_sound hstep with hx | hx
      · exact ⟨(hname, g), hmem, hx ▸ hsink⟩
      · exact ⟨hg, hhg, hx⟩
  · exact sink_mem_get_call_path_to

/-- Witness for C3 on the synthetic graph of the end-to-end scenario. -/
theorem claim3_witness :
    entryNode cgC5 ∈ get_call_path_to [("h", cgC5)] "sink" 600 false ∧
    "sink" ∈ get_call_path_to [("h", cgC5)] "sink" 600 false :=
  (claim3_call_path_soundness [("h", cgC5)] "h" cgC5 "sink" 600
    (by decide) (by decide) reachesC5).1

/-- C5: on the synthetic call graph
`{"LLVMFuzzerTestOneInput": ["a"], "a": ["b", "c"], "b": ["sink"], "c": []}`
the completed engine returns exactly the set
`{"LLVMFuzzerTestOneInput", "a", "b", "sink"}`; in particular `"c"`,
which lies on no path to the sink, is excluded. -/
theorem claim5_synthetic_scenario :
    (get_call_path_to [("harness", cgC5)] "sink" 600 false).toFinset =
      {"LLVMFuzzerTestOneInput", "a", "b", "sink"} ∧
    "c" ∉ get_call_path_to [("harness", cgC5)] "sink" 600 false := by
  constructor <;> decide

/-- A resolver on which every resolution step fails except that the
source-location search ranks one candidate — whose final lookup then
fails. -/
def rNone : PoiResolver := ⟨fun _ => none, fun _ => none, fun s => s, fun _ => ["cand"]⟩

/-- A fully successful resolver: the fuzzy match yields `"k"` and every
lookup returns the same index. -/
def fiW : FunctionIndex := ⟨"k", "f", 1, 2, false⟩

def rOkW : PoiResolver := ⟨fun _ => some "k", fun _ => some fiW, fun s => s, fun _ => []⟩

/-- C4, counterexample.  The claim says `get_function_index_from_poi`
returns a `FunctionIndex` in every non-failing case.  But when the
fuzzy match and the literal lookup fail while `resolve_source_location`
ranks a candidate whose final `get` fails, the `try/except` around
`ret_val = self.function_resolver.get(actual_key)` swallows the failure
and the method returns `None` — a non-failing call with no
`FunctionIndex`. -/
theorem claim4_counterexample :
    get_function_index_from_poi rNone "poi_ref" = Except.ok none := rfl

/-- C4, amended: the method fails with the
`ValueError("... could not be resolved.")` exactly when the fuzzy
match, the literal key lookup and the source-location search all fail;
every `FunctionIndex` it returns comes from one of the three steps;
a `None` return happens exactly when the top source-location
candidate's final lookup fails; and an `AttributeError` (not a
resolution error) escapes when a fuzzy-matched key's lookup fails. -/
theorem claim4_amended (r : PoiResolver) (s : String) :
    ((get_function_index_from_poi r s =
        Except.error (PyError.valueError (s ++ " could not be resolved."))) ↔
      (r.find_matching_index s = none ∧ r.get s = none ∧
        r.resolve_source_location (r.to_source_location s) = [])) ∧
    (∀ fi, get_function_index_from_poi r s = Except.ok (some fi) →
      (∃ k, r.find_matching_index s = some k ∧ r.get k = some fi) ∨
      (r.find_matching_index s = none ∧ r.get s = some fi) ∨
      (∃ k rest, r.find_matching_index s = none ∧ r.get s = none ∧
        r.resolve_source_location (r.to_source_location s) = k :: rest ∧
        r.get k = some fi)) ∧
    (get_function_index_from_poi r s = Except.ok none →
      ∃ k rest, r.find_matching_index s = none ∧ r.get s = none ∧
        r.resolve_source_location (r.to_source_location s) = k :: rest ∧
        r.get k = none) ∧
    (get_function_index_from_poi r s = Except.error PyError.attributeError →
      ∃ k, r.find_matching_index s = some k ∧ r.get k = none) := by
  rcases hf : r.find_matching_index s with _ | key
  · rcases hg : r.get s with _ | fi
    · rcases hc : r.resolve_source_location (r.to_source_location s) with _ | ⟨k, rest⟩
      · simp [get_function_index_from_poi, hf, hg, hc]
      · rcases hk : r.get k with _ | fi2 <;>
          simp [get_function_index_from_poi, hf, hg, hc, hk]
    · simp [get_function_index_from_poi, hf, hg]
  · rcases hg : r.get key with _ | fi <;>
      simp [get_function_index_from_poi, hf, hg]

/-- Witness for the amended C4 on the fully successful resolver. -/
theorem claim4_amended_witness :
    (∃ k, rOkW.find_matching_index "x" = some k ∧ rOkW.get k = some fiW) ∨
    (rOkW.find_matching_index "x" = none ∧ rOkW.get "x" = some fiW) ∨
    (∃ k rest, rOkW.find_matching_index "x" = none ∧ rOkW.get "x" = none ∧
      rOkW.resolve_source_location (rOkW.to_source_location "x") = k :: rest ∧
      rOkW.get k = some fiW) :=
  (claim4_amended rOkW "x").2.1 fiW rfl

/-- C6, counterexample.  The claim says every frame line of the
boundary shape `#<n> <addr> in <function> <file>:<line>[:<col>]` — the
column being optional — is submitted to the resolver.  The frame
`#0 0xdead in foo /src/a.c:12` matches that shape (no column) and is
captured by `line_pattern` as `("foo", "/src/a.c:12")`, and the
resolver `rvW` would resolve it; yet `"/src/a.c:12".rsplit(":", 2)`
yields only two components, the three-way unpacking raises
`ValueError`, and the frame is skipped: nothing is ever submitted and
no POI is produced. -/
theorem claim6_counterexample :
    (crash_add_poi rvW [[⟨"foo", "/src/a.c:12"⟩]] []).submitted = [] ∧
    (crash_add_poi rvW [[⟨"foo", "/src/a.c:12"⟩]] []).pois = [] := by decide

/-- C6, amended: a frame at the head of the remaining walk (the walk
not having stopped at the fuzz-entry or process-entry symbol and no
earlier frame having crashed the parse) is submitted to the resolver
exactly as captured — provided its location carries both a line and a
column, i.e. `rsplit(":", 2)` yields three components with a numeric
middle; frames with a bare `file:line` location are skipped, not
submitted. -/
theorem claim6_amended (rv : CrashResolver) (f : CrashFrame)
    (rest : List CrashFrame) (leader : Option String) (st : CrashState)
    (filepath line_number col : String) (n : Nat)
    (hcr : st.crashed = false)
    (hstop1 : strContainsSub "LLVMFuzzerTestOneInput" f.func = false)
    (hstop2 : strContainsSub "__libc_start_main" f.func = false)
    (hsp : rsplit_colon_2 f.loc = [filepath, line_number, col])
    (hn : strToNat? line_number = some n) :
    (f.func, pathBasename filepath, n) ∈
      (processFrames rv (f :: rest) leader st).submitted :=
  processFrames_submits rv f rest leader st filepath line_number col n
    hcr hstop1 hstop2 hsp hn

/-- Witness for the amended C6: the same frame with a column is
submitted. -/
theorem claim6_amended_witness :
    ("foo", "a.c", 12) ∈ (processFrames rvW [⟨"foo", "/src/a.c:12:5"⟩] none
      ⟨[], [], [], [], none, [], false⟩).submitted :=
  claim6_amended rvW ⟨"foo", "/src/a.c:12:5"⟩ [] none
    ⟨[], [], [], [], none, [], false⟩ "/src/a.c" "12" "5" 12
    rfl (by decide) (by decide) (by decide) (by decide)

set_option maxRecDepth 10000 in
/-- C7, counterexample.  The claim says a crash report in which two
stack frames resolve to the same identity produces exactly one POI for
that identity.  In the 102-frame block `framesCap`, the 101st and 102nd
frames both resolve (under `rvW`) to the identity `"100"` — the
submission record carries that triple twice — but by then the catalog
already holds 100 POIs, so the first of the two is dropped by the cap
(while still entering `seen_func_indices`) and the second is skipped as
seen: the report produces zero POIs for that identity, not one. -/
theorem claim7_counterexample :
    (crash_add_poi rvW [framesCap] []).submitted.count ("100", "a.c", 12) = 2 ∧
    ((crash_add_poi rvW [framesCap] []).pois.map
      (fun p => p.function_index_key)).count "100" = 0 := by decide

/-- C7, amended: within one crash-report ingestion no identity ever
owns two POIs (frames whose resolved identity was already seen are
skipped before insertion), and every identity recorded during the run
owns exactly one new POI provided the 100-entry cap was never reached
during the run. -/
theorem claim7_amended (rv : CrashResolver) (blocks : List (List CrashFrame))
    (pois0 : List CrashPoiEntry) (k : String) :
    ((((crash_add_poi rv blocks pois0).pois.drop pois0.length).map
      (fun p => p.function_index_key)).count k ≤ 1) ∧
    (k ∈ (crash_add_poi rv blocks pois0).seen →
      (crash_add_poi rv blocks pois0).pois.length < 100 →
      (((crash_add_poi rv blocks pois0).pois.drop pois0.length).map
        (fun p => p.function_index_key)).count k = 1) := by
  obtain ⟨hlen, hnd, hsub, hcov⟩ := crash_add_poi_dedup rv blocks pois0
  constructor
  · exact List.nodup_iff_count_le_one.mp hnd k
  · intro hk hcap
    rcases hcov k hk with h | h
    · exact List.count_eq_one_of_mem hnd h
    · omega

/-- Witness for the amended C7: a two-frame block resolving twice to
the identity `"f1"` yields exactly one POI for it. -/
theorem claim7_amended_witness :
    ((((crash_add_poi rvW [[⟨"f1", "/a.c:1:2"⟩, ⟨"f1", "/a.c:9:9"⟩]] []).pois.drop 0).map
      (fun p => p.function_index_key)).count "f1" = 1) :=
  (claim7_amended rvW [[⟨"f1", "/a.c:1:2"⟩, ⟨"f1", "/a.c:9:9"⟩]] [] "f1").2
    (by decide) (by decide)

/-- C8: every POI produced by the optimal-targets ingestion (beyond
those already in the catalog) stems from a report entry that was
flagged reached and had non-zero start and end lines — so an entry
with `is_reached: false` or a zero line is never converted into a POI
— and carries that entry's runtime coverage percent and accumulated
complexity as its metadata (together with the resolver's key for it). -/
theorem claim8_optimal_targets_filter
    (resolve : String → String → Nat → Option String) (resolvePath : String → String)
    (pois0 : List OssPoiEntry) (entries : List OssEntry) (p : OssPoiEntry)
    (hp : p ∈ parse_poi_from_optimal_targets resolve resolvePath pois0 entries) :
    p ∈ pois0 ∨ OssGoodPoi resolve resolvePath entries p :=
  parse_optimal_targets_sound resolve resolvePath entries pois0 p hp

/-- Witness for C8 on a one-entry report. -/
theorem claim8_witness :
    (⟨"k", 50, 7, entryReached⟩ : OssPoiEntry) ∈ ([] : List OssPoiEntry) ∨
    OssGoodPoi (fun _ _ _ => some "k") (fun s => s) [entryReached]
      ⟨"k", 50, 7, entryReached⟩ :=
  claim8_optimal_targets_filter (fun _ _ _ => some "k") (fun s => s) []
    [entryReached] ⟨"k", 50, 7, entryReached⟩ (by decide)

/-- A harness graph that lacks `"LLVMFuzzerTestOneInput"` and contains
`"main"`. -/
def gMain : DiGraph := gen_callgraph_from_file [("main", ["x"])]

/-- C9: `CrashPOI.get_call_path_to` overrides the base engine with no
graph search and no timeout handling: its result is `["main"]` —
emitted only when exactly one harness graph is cached, that graph lacks
`"LLVMFuzzerTestOneInput"` and contains `"main"` — followed by the sink
name, followed by the recorded same-block call-path suffix for the
sink, the suffix being empty when none was recorded (the result then
ends at the sink). -/
theorem claim9_crash_override (harness_cfg : List (String × DiGraph))
    (blcp : List (String × List String)) (sink : String) :
    (∀ (hname : String) (g : DiGraph), harness_cfg = [(hname, g)] →
      g.containsNode "LLVMFuzzerTestOneInput" = false →
      g.containsNode "main" = true →
      crash_get_call_path_to harness_cfg blcp sink =
        "main" :: sink :: (alookup blcp sink).getD []) ∧
    (∀ (hname : String) (g : DiGraph), harness_cfg = [(hname, g)] →
      (g.containsNode "LLVMFuzzerTestOneInput" = true ∨
        g.containsNode "main" = false) →
      crash_get_call_path_to harness_cfg blcp sink =
        sink :: (alookup blcp sink).getD []) ∧
    (harness_cfg.length ≠ 1 →
      crash_get_call_path_to harness_cfg blcp sink =
        sink :: (alookup blcp sink).getD []) ∧
    (alookup blcp sink = none →
      ∃ front, crash_get_call_path_to harness_cfg blcp sink = front ++ [sink]) := by
  refine ⟨?_, ?_, ?_, ?_⟩
  · rintro hname g rfl hL hmain
    simp [crash_get_call_path_to, hL, hmain]
  · rintro hname g rfl hcond
    rcases hcond with hL | hmain
    · simp [crash_get_call_path_to, hL]
    · by_cases hL : g.containsNode "LLVMFuzzerTestOneInput" <;>
        simp [crash_get_call_path_to, hL, hmain]
  · intro hlen
    rcases harness_cfg with _ | ⟨hg, _ | ⟨hg2, tl⟩⟩
    · simp [crash_get_call_path_to]
    · simp at hlen
    · simp [crash_get_call_path_to]
  · intro hnone
    rcases harness_cfg with _ | ⟨⟨hname, g⟩, _ | ⟨hg2, tl⟩⟩
    · exact ⟨[], by simp [crash_get_call_path_to, hnone]⟩
    · by_cases hL : g.containsNode "LLVMFuzzerTestOneInput"
      · exact ⟨[], by simp [crash_get_call_path_to, hL, hnone]⟩
      · by_cases hmain : g.containsNode "main"
        · exact ⟨["main"], by simp [crash_get_call_path_to, hL, hmain, hnone]⟩
        · exact ⟨[], by simp [crash_get_call_path_to, hL, hmain, hnone]⟩
    · exact ⟨[], by simp [crash_get_call_path_to, hnone]⟩

/-- Witness for C9 in the single-graph `"main"` configuration. -/
theorem claim9_witness :
    crash_get_call_path_to [("h", gMain)] [("sink", ["s1"])] "sink" =
      "main" :: "sink" :: (alookup [("sink", ["s1"])] "sink").getD [] :=
  (claim9_crash_override [("h", gMain)] [("sink", ["s1"])] "sink").1 "h" gMain
    rfl (by decide) (by decide)

/-- Membership in an association list with pairwise distinct keys
determines the value. -/
theorem assoc_keys_nodup_eq {α : Type} :
    ∀ {obj : List (String × α)}, (obj.map Prod.fst).Nodup →
      ∀ {f : String} {l1 l2 : α}, (f, l1) ∈ obj → (f, l2) ∈ obj → l1 = l2 := by
  intro obj
  induction obj with
  | nil => intro _ f l1 l2 h1; simp at h1
  | cons kv rest ih =>
    intro hnd f l1 l2 h1 h2
    simp only [List.map_cons, List.nodup_cons] at hnd
    rcases List.mem_cons.mp h1 with h1 | h1 <;> rcases List.mem_cons.mp h2 with h2 | h2
    · rw [← h2] at h1
      exact congrArg Prod.snd h1
    · exfalso
      apply hnd.1
      rw [← h1]
      exact List.mem_map.mpr ⟨(f, l2), h2, rfl⟩
    · exfalso
      apply hnd.1
      rw [← h2]
      exact List.mem_map.mpr ⟨(f, l1), h1, rfl⟩
    · exact ih hnd.2 h1 h2

/-- C10: `gen_callgraph_from_file` produces the edge `(caller, callee)`
exactly when the callee appears in the caller's YAML list, and — the
YAML mapping having unique keys — a function mapped to an empty callee
list is a node of the graph exactly when it appears in some function's
callee list; in particular a harness entry function with no recorded
callees and no callers is absent from the graph. -/
theorem claim10_callgraph_edges (obj : List (String × List String)) :
    (∀ a b, ((a, b) ∈ (gen_callgraph_from_file obj).edges ↔
      ∃ kl ∈ obj, kl.1 = a ∧ b ∈ kl.2)) ∧
    (∀ f, (obj.map Prod.fst).Nodup → (f, ([] : List String)) ∈ obj →
      ((gen_callgraph_from_file obj).containsNode f = true ↔
        ∃ kl ∈ obj, f ∈ kl.2)) := by
  constructor
  · intro a b
    simp only [gen_callgraph_from_file, List.mem_flatMap, List.mem_map]
    constructor
    · rintro ⟨kv, hkv, v, hv, heq⟩
      obtain ⟨h1, h2⟩ := Prod.mk.injEq .. ▸ heq
      exact ⟨kv, hkv, h1, h2 ▸ hv⟩
    · rintro ⟨kv, hkv, h1, h2⟩
      exact ⟨kv, hkv, b, h2, by rw [h1]⟩
  · intro f hnd hf0
    rw [containsNode_iff]
    simp only [DiGraph.nodes, gen_callgraph_from_file, List.mem_dedup, List.mem_append,
      List.mem_map, List.mem_flatMap]
    constructor
    · rintro (⟨e, ⟨kv, hkv, v, hv, hev⟩, hef⟩ | ⟨e, ⟨kv, hkv, v, hv, hev⟩, hef⟩)
      · exfalso
        have hkvf : kv.1 = f := by rw [← hef, ← hev]
        have : kv.2 = [] := by
          have hmem : (f, kv.2) ∈ obj := by
            rw [← hkvf]
            exact hkv
          exact assoc_keys_nodup_eq hnd hmem hf0
        rw [this] at hv
        simp at hv
      · have hvf : v = f := by rw [← hef, ← hev]
        exact ⟨kv, hkv, hvf ▸ hv⟩
    · rintro ⟨kl, hkl, hfkl⟩
      exact Or.inr ⟨(kl.1, f), ⟨kl, hkl, f, hfkl, rfl⟩, rfl⟩

/-- Witness for C10: in `{"f": [], "g": ["x"]}` the function `"f"` (an
entry with no recorded callees and no callers) is absent from the
graph. -/
theorem claim10_witness :
    (gen_callgraph_from_file [("f", []), ("g", ["x"])]).containsNode "f" = true ↔
      ∃ kl ∈ [("f", ([] : List String)), ("g", ["x"])], "f" ∈ kl.2 :=
  (claim10_callgraph_edges [("f", []), ("g", ["x"])]).2 "f" (by decide) (by decide)
